import Mathlib

/-!
Verification of the multi-model alignment and diagnostic-reduction pipeline
of the ProjectPythia cmip6-cookbook notebooks.

The Python notebooks are shallowly embedded here:
numeric arrays become lists over the rationals (or functions out of a finite
index type), missing values (the float NaN missing marker) become a value of
type Option, and a raised exception becomes a constructor of a result type
(or a none result).  Each definition is translated from one function or cell
of the source notebooks; the doc comment of each definition names its origin.
-/

namespace Cmip6

/-! ## Latitude coordinate lookup and the spatial reduction

Source: function get_lat_name in notebooks/example-workflows/ecs-cmip6.ipynb
(also repeated verbatim in the Global Mean Surface Temperature notebook).
A dataset is represented by the list of its coordinate names; the loop
pattern for lat_name in ['lat', 'latitude'] with early return becomes a
pair of conditionals, and the final raise RuntimeError becomes none. -/
def get_lat_name (coords : List String) : Option String :=
  if "lat" ∈ coords then some "lat"
  else if "latitude" ∈ coords then some "latitude"
  else none

/-- A raw series for the spatial reduction: dimensions (time, lat, lon),
a latitude coordinate in degrees, and a numeric field.  The embedding
fixes the dimension sizes in the type, so the dimension layout of the
source xarray dataset is explicit. -/
structure RawSeries (nt nlat nlon : ℕ) where
  lat : Fin nlat → ℚ
  data : Fin nt → Fin nlat → Fin nlon → ℚ

/-- Source: function global_mean in ecs-cmip6.ipynb:

    weight = np.cos(np.deg2rad(lat)); weight /= weight.mean()
    other_dims = set(ds.dims) - set(time); return (ds * weight).mean(other_dims)

The raw (un-normalized) weight function w0 is a parameter standing for the
composite np.cos of np.deg2rad applied to one latitude value (the real cosine
is transcendental, so the embedding proves the reduction structure for every
weight function, the cosine instance included).  weight.mean() is the mean
over the latitude axis; the final mean runs over both non-time dimensions
(lat and lon), exactly as set(ds.dims) - set(time) does for a (time, lat,
lon) dataset.  The output is indexed by the input time index Fin nt, so the
result has exactly one remaining dimension of the input time length. -/
def global_mean (w0 : ℚ → ℚ) {nt nlat nlon : ℕ} (ds : RawSeries nt nlat nlon) :
    Fin nt → ℚ :=
  let weight : Fin nlat → ℚ := fun i => w0 (ds.lat i)
  let wnorm : Fin nlat → ℚ := fun i => weight i / ((∑ k, weight k) / (nlat : ℚ))
  fun t => (∑ i, ∑ j, ds.data t i j * wnorm i) / ((nlat : ℚ) * (nlon : ℚ))

/-! ## Year coordinate rebase

Source: the dsets_aligned loop of ecs-cmip6.ipynb,

    ds.coords['year'] = ds.time.dt.year - ds.time.dt.year[0]

and the corresponding loop of the Global Mean Surface Temperature notebook,

    ds.coords['year'] = ds.time.dt.year

A time coordinate is represented by the list of its calendar years. -/

/-- Year coordinate assigned by the ECS pipeline: calendar year minus the
calendar year of the first sample. -/
def rebase_years_ecs (years : List ℤ) : List ℤ :=
  years.map (fun y => y - years.headI)

/-- Year coordinate assigned by the GMST pipeline: the calendar year itself,
with no rebase. -/
def rebase_years_gmst (years : List ℤ) : List ℤ :=
  years

/-! ## The ECS estimator

Source: function calc_ecs in ecs-cmip6.ipynb:

    a, b = np.polyfit(tas, imb, 1); ecs = -1.0 * (b/a)

np.polyfit of degree 1 is the least-squares line fit; over exact rational
arithmetic its unique solution on a non-degenerate input is given by the
normal equations, embedded here in closed form.  Rational division by zero
yields 0, which plays the role of the junk value the float code produces on
a degenerate input. -/

/-- Sum of pairwise products of two equally long sequences. -/
def dotSum (xs ys : List ℚ) : ℚ :=
  (List.zipWith (fun a b => a * b) xs ys).sum

/-- Slope a of the degree-1 least-squares fit y = a * x + b, from the normal
equations. -/
def polyfit_slope (xs ys : List ℚ) : ℚ :=
  ((xs.length : ℚ) * dotSum xs ys - xs.sum * ys.sum) /
    ((xs.length : ℚ) * dotSum xs xs - xs.sum * xs.sum)

/-- Intercept b of the degree-1 least-squares fit y = a * x + b. -/
def polyfit_intercept (xs ys : List ℚ) : ℚ :=
  (ys.sum - polyfit_slope xs ys * xs.sum) / (xs.length : ℚ)

/-- Source: calc_ecs of ecs-cmip6.ipynb; returns -1.0 * (b / a) for the
degree-1 fit imbalance = a * temperature + b. -/
def calc_ecs (tas imb : List ℚ) : ℚ :=
  -1 * (polyfit_intercept tas imb / polyfit_slope tas imb)

/-- Sum of squared residuals of the line y = a * x + b over the paired
points; the quantity np.polyfit of degree 1 minimizes. -/
def rss (a b : ℚ) (xs ys : List ℚ) : ℚ :=
  (List.zipWith (fun u v => (a * u + b - v) * (a * u + b - v)) xs ys).sum

/-! ## Missing-value removal before the fit

Source: function calc_and_plot_ecs in ecs-cmip6.ipynb:

    x = x[~np.isnan(x)]
    y = y[~np.isnan(y)]

A float sequence with possible NaN markers is embedded as a list of
Option values, none being the missing marker. -/

/-- Boolean-mask removal of missing entries from one sequence, the embedding
of x[~np.isnan(x)]. -/
def dropMissing (xs : List (Option ℚ)) : List ℚ :=
  xs.filterMap id

/-- Source: the first two lines of calc_and_plot_ecs: each of the two
sequences is filtered on its own mask, independently of the other. -/
def calc_and_plot_ecs_filter (xs ys : List (Option ℚ)) : List ℚ × List ℚ :=
  (dropMissing xs, dropMissing ys)

/-- Modelled from the spec (section 4.5): paired removal, stated for
comparison with the code's independent removal: an index is kept only when
both sequences hold a value there, and both values are kept together. -/
def pairedRemovalSpec : List (Option ℚ) → List (Option ℚ) → List ℚ × List ℚ
  | some a :: xs, some b :: ys =>
      ((pairedRemovalSpec xs ys).1.cons a, (pairedRemovalSpec xs ys).2.cons b)
  | _ :: xs, _ :: ys => pairedRemovalSpec xs ys
  | _, _ => ([], [])

/-! ## Annual coarsening

Source: the dsets_ann_mean list comprehension of ecs-cmip6.ipynb (and of the
GMST notebook): .coarsen(year=12).mean().  xarray coarsen with its default
boundary, which both notebooks use, requires the window to divide the
dimension length exactly and raises a ValueError otherwise; the error is
embedded as a none result.  Each full window of 12 samples is replaced by
its unweighted mean. -/

/-- Unweighted mean of a list. -/
def meanQ (xs : List ℚ) : ℚ :=
  xs.sum / (xs.length : ℚ)

/-- Consecutive blocks of w elements of a list (the last block may be
shorter when w does not divide the length). -/
def blocks (w : ℕ) (xs : List ℚ) : List (List ℚ) :=
  if h : 0 < w ∧ xs ≠ [] then xs.take w :: blocks w (xs.drop w) else []
termination_by xs.length
decreasing_by
  have hlen : 0 < xs.length := List.length_pos.mpr h.2
  simp only [List.length_drop]
  omega

/-- Source: .coarsen(year=12).mean() with the default exact boundary; the
window size there is 12.  Fails (none) when the window does not divide the
series length, otherwise averages each window. -/
def coarsen_mean (w : ℕ) (xs : List ℚ) : Option (List ℚ) :=
  if 0 < w ∧ xs.length % w = 0 then some ((blocks w xs).map meanQ) else none

/-! ## Per-model experiment alignment

Source: the dsets_aligned loop of ecs-cmip6.ipynb (the GMST notebook runs
the same loop):

    for k, v in tqdm(dsets_.items()):
        expt_dsets = v.values()
        if any([d is None for d in expt_dsets]):
            print(f"Missing experiment for " + k)
            continue
        ...
        dsets_aligned[k] = xr.concat(..., dim=expt_da)

The per-model mapping v from experiment name to dataset is embedded as a
function into Option: a missing or unopenable experiment is none, exactly
the None that open_dsets returns.  The skip branch (report and continue)
becomes the excluded constructor carrying the printed report; the success
branch becomes a frame holding one row per requested experiment. -/

inductive AlignResult (α : Type) where
  | excluded (report : String)
  | frame (rows : List (String × α))
deriving DecidableEq, Repr

/-- One iteration of the dsets_aligned loop, for model k with requested
experiment list expts and per-experiment data v. -/
def align_model {α : Type} (k : String) (expts : List String)
    (v : String → Option α) : AlignResult α :=
  if expts.any (fun e => (v e).isNone)
  then .excluded ("Missing experiment for " ++ k)
  else .frame (expts.filterMap (fun e => (v e).map (fun d => (e, d))))

/-! ## Join policies of the experiment concatenation

Source: xr.concat(dsets_ann_mean, join='right', dim=expt_da) in
ecs-cmip6.ipynb, which aligns every experiment to the year index of the
last list entry (the forcing experiment, as expts puts piControl first and
the CO2 experiment last), and xr.concat(dsets_ann_mean, join='outer',
dim=expt_da) in the GMST notebook, which keeps the union of the year
indexes.  A reduced annual series is an association list from year to
value; re-indexing a series to a target year index fills years the series
lacks with the explicit missing marker none (xarray reindexing fills NaN,
never zero). -/

/-- A reduced annual series: (year, value) pairs. -/
abbrev SeriesQ := List (ℤ × ℚ)

/-- The year index of a series. -/
def series_years (s : SeriesQ) : List ℤ :=
  s.map Prod.fst

/-- Value of a series at a year, none when the year is absent. -/
def series_lookup (s : SeriesQ) (y : ℤ) : Option ℚ :=
  (s.find? (fun p => p.1 == y)).map Prod.snd

/-- Re-index a series to a target year index; absent years become the
explicit missing marker none. -/
def reindex (idx : List ℤ) (s : SeriesQ) : List (ℤ × Option ℚ) :=
  idx.map (fun y => (y, series_lookup s y))

/-- Source: xr.concat(..., join='right', ...) of ecs-cmip6.ipynb: every
series is re-indexed to the year index of the last series in the list. -/
def concat_right (ss : List SeriesQ) : List (List (ℤ × Option ℚ)) :=
  ss.map (reindex (series_years (ss.getLastD [])))

/-- Union of the year indexes of a list of series, kept in first-appearance
order with duplicates removed. -/
def outer_index (ss : List SeriesQ) : List ℤ :=
  (ss.foldr (fun s acc => series_years s ++ acc) []).dedup

/-- Source: xr.concat(..., join='outer', ...) of the GMST notebook: every
series is re-indexed to the union of all year indexes. -/
def concat_outer (ss : List SeriesQ) : List (List (ℤ × Option ℚ)) :=
  ss.map (reindex (outer_index ss))

/-! ## Batch regridding with per-model error capture

Source: the regridding loop of notebooks/example-workflows/xesmf-ohu.ipynb:

    ds_regrid_dict = dict(); success_count = 0; model_count = 0
    for ctrl_key, expr_key in zip(ctrl_keys, expr_keys):
        try: ... regrid ...
        except Exception as e: print('Failed to regrid ' + model + ': ' + str(e))
        else: ds_regrid_dict[model] = ...; success_count += 1
        finally: model_count += 1
    print(... str(success_count) + '/' + str(model_count)
          + ' models successfully regridded! ...')

The body of one iteration (get_tcr plus regrid) either produces a value or
raises; it is embedded as an Except value per model: error carries the
exception text, ok carries the regridded field. -/

structure BatchResult (α : Type) where
  regridded : List (String × α)
  success_count : ℕ
  model_count : ℕ
  failures : List String
deriving Repr

/-- One iteration of the regridding loop: a failure is converted to a
recorded message and counted (the except branch plus the finally), a
success is stored and counted (the else branch plus the finally). -/
def regrid_step {α : Type} (acc : BatchResult α)
    (mr : String × Except String α) : BatchResult α :=
  match mr.2 with
  | .error e =>
      { acc with
        failures := acc.failures ++ ["Failed to regrid " ++ mr.1 ++ ": " ++ e]
        model_count := acc.model_count + 1 }
  | .ok a =>
      { acc with
        regridded := acc.regridded ++ [(mr.1, a)]
        success_count := acc.success_count + 1
        model_count := acc.model_count + 1 }

/-- The whole regridding loop over the attempted models. -/
def regrid_batch {α : Type} (runs : List (String × Except String α)) :
    BatchResult α :=
  runs.foldl regrid_step ⟨[], 0, 0, []⟩

/-- Whether a model run succeeded. -/
def isOkB {α : Type} : Except String α → Bool
  | .ok _ => true
  | .error _ => false

/-- Text of the exception carried by a failed model run. -/
def errText {α : Type} : Except String α → String
  | .error e => e
  | .ok _ => ""

/-- Value carried by a successful model run. -/
def okVal {α : Type} [Inhabited α] : Except String α → α
  | .ok a => a
  | .error _ => default

/-- Source: the final print of the regridding loop; the decorative dashes
and bars around the sentence are omitted. -/
def batch_summary {α : Type} (b : BatchResult α) : String :=
  toString b.success_count ++ "/" ++ toString b.model_count ++
    " models successfully regridded!"

/-! ## Catalog key splitting

Source: function sorted_split_list in xesmf-ohu.ipynb:

    def sorted_split_list(a_list):
        c_list = []; e_list = []
        for item in a_list:
            if 'piControl' in item: c_list.append(item)
            elif '1pctCO2' in item: e_list.append(item)
            else: print('Could not find experiment name in key:' + item)
        return sorted(c_list), sorted(e_list)

Python substring containment 'sub' in item is embedded as an executable
infix check on the character lists; Python sorted on strings is embedded as
insertion sort under the lexicographic string order (equal strings are
identical, so stability cannot distinguish the two sorts). -/

/-- Executable check that sub occurs as a contiguous run inside l. -/
def hasInfixB (sub : List Char) : List Char → Bool
  | [] => sub.isEmpty
  | c :: rest => sub.isPrefixOf (c :: rest) || hasInfixB sub rest

/-- Python substring containment sub in s. -/
def strContains (s sub : String) : Bool :=
  hasInfixB sub.toList s.toList

/-- The if / elif / else loop of sorted_split_list, producing the two
unsorted lists in input order. -/
def split_keys : List String → List String × List String
  | [] => ([], [])
  | k :: rest =>
      let p := split_keys rest
      if strContains k "piControl" then (k :: p.1, p.2)
      else if strContains k "1pctCO2" then (p.1, k :: p.2)
      else p

/-- Source: sorted_split_list of xesmf-ohu.ipynb. -/
def sorted_split_list (ks : List String) : List String × List String :=
  ((split_keys ks).1.insertionSort (· ≤ ·), (split_keys ks).2.insertionSort (· ≤ ·))

/-! ## Theorems -/

/-- C4: the spatial reduction's latitude lookup fails (none, the embedded
MissingCoordinate error) exactly when the dataset exposes neither of the
recognized coordinate names lat and latitude; when one of them is present
it returns a coordinate name and never fails. -/
theorem get_lat_name_none_iff (coords : List String) :
    get_lat_name coords = none ↔ ("lat" ∉ coords ∧ "latitude" ∉ coords) := by
  unfold get_lat_name
  split
  · simp_all
  · split <;> simp_all

/-- Witness for C4: the lookup fails on a dataset with only a lon
coordinate, and part of the proof goes through the theorem at that input. -/
theorem get_lat_name_none_iff_holds :
    get_lat_name ["lon"] = none :=
  (get_lat_name_none_iff ["lon"]).mpr (by decide)

/-- C5 counterexample: the GMST pipeline assigns the absolute calendar year
as the year coordinate; for a series starting in calendar year 1850 the
claimed relative counter would be [0, 1], but the pipeline produces
[1850, 1851], which does not start at 0. -/
theorem rebase_gmst_counterexample :
    rebase_years_gmst [1850, 1851] = [1850, 1851] ∧
    List.map (fun y => y - (1850 : ℤ)) [1850, 1851] = [0, 1] ∧
    rebase_years_gmst [1850, 1851] ≠ [0, 1] := by
  decide

/-- C5 amended: the ECS pipeline rebases the year coordinate to the
relative counter calendar_year minus first calendar_year, which starts at
0; the GMST pipeline keeps the absolute calendar year unchanged. -/
theorem rebase_policies (y0 : ℤ) (ys : List ℤ) :
    rebase_years_ecs (y0 :: ys) = (y0 :: ys).map (fun y => y - y0) ∧
    (rebase_years_ecs (y0 :: ys)).headI = 0 ∧
    rebase_years_gmst (y0 :: ys) = y0 :: ys := by
  refine ⟨?_, ?_, rfl⟩ <;> simp [rebase_years_ecs, rebase_years_gmst]

/-- C1 counterexample: a two-point window on the synthetic line
imbalance = -2 * temperature + 8 whose temperatures coincide makes the fit
degenerate, and calc_ecs returns the junk value 0 of the embedding rather
than 4. -/
theorem calc_ecs_constant_counterexample :
    List.map (fun t => -2 * t + 8) [(1 : ℚ), 1] = [6, 6] ∧
    calc_ecs [(1 : ℚ), 1] [6, 6] = 0 ∧ (0 : ℚ) ≠ 4 := by
  refine ⟨by norm_num, ?_, by norm_num⟩
  norm_num [calc_ecs, polyfit_intercept, polyfit_slope, dotSum, List.zipWith]

/-- C2 counterexample: calc_and_plot_ecs removes missing entries from each
sequence independently, so on sequences whose missing positions differ it
keeps a value whose partner was dropped, where paired removal would keep
nothing; and on a degenerate window (constant temperatures) calc_ecs
returns the numeric junk value 0 instead of failing. -/
theorem unpaired_removal_counterexample :
    calc_and_plot_ecs_filter [none, some 1] [some 5, none] = ([1], [5]) ∧
    pairedRemovalSpec [none, some 1] [some 5, none] = ([], []) ∧
    (([1], [5]) : List ℚ × List ℚ) ≠ ([], []) ∧
    calc_ecs [(3 : ℚ), 3] [1, 2] = 0 := by
  refine ⟨by simp [calc_and_plot_ecs_filter, dropMissing], by simp [pairedRemovalSpec],
    by simp, ?_⟩
  norm_num [calc_ecs, polyfit_intercept, polyfit_slope, dotSum, List.zipWith]

/-- C6 counterexample: a 25-month series is not divisible into 12-month
windows, and the coarsening step fails on it (none, embedding the
ValueError of the exact boundary) instead of truncating to 2 points. -/
theorem coarsen_25_counterexample :
    coarsen_mean 12 (List.replicate 25 (1 : ℚ)) = none := by
  norm_num [coarsen_mean]

/-- C10 counterexample: a key containing both experiment substrings is
routed by the elif only to the piControl list, so the 1pctCO2 list does not
contain every key with the 1pctCO2 substring. -/
theorem split_both_substrings_counterexample :
    strContains "piControl1pctCO2" "1pctCO2" = true ∧
    sorted_split_list ["piControl1pctCO2"] = (["piControl1pctCO2"], []) ∧
    "piControl1pctCO2" ∉ (sorted_split_list ["piControl1pctCO2"]).2 := by
  decide

/-- C3: for every weight-generating function (the cosine of latitude in
radians included) with nonzero total weight, the spatial reduction
normalizes the per-latitude weights to mean 1 over the latitude axis, each
output sample is the genuine weighted average of the field over the
non-time dimensions (weights summing to 1 over space, uniform over
longitude), a spatially constant field reduces to its constant (so the
reduction is an average, not a sum), and the output is indexed by the
input's time index Fin nt, one value per input time step. -/
theorem global_mean_weighted_average (w0 : ℚ → ℚ) {nt nlat nlon : ℕ}
    (ds : RawSeries nt nlat nlon) (hlat : 0 < nlat) (hlon : 0 < nlon)
    (hw : (∑ k, w0 (ds.lat k)) ≠ 0) :
    ((∑ i, w0 (ds.lat i) / ((∑ k, w0 (ds.lat k)) / (nlat : ℚ))) / (nlat : ℚ) = 1) ∧
    (∀ t, global_mean w0 ds t =
      ∑ i, ∑ j, (w0 (ds.lat i) / (∑ k, w0 (ds.lat k))) * (ds.data t i j / (nlon : ℚ))) ∧
    (∀ (c : ℚ) (t : Fin nt),
      global_mean w0
        ({ lat := ds.lat, data := fun _ _ _ => c } : RawSeries nt nlat nlon) t = c) := by
  have hn : ((nlat : ℚ)) ≠ 0 := Nat.cast_ne_zero.mpr hlat.ne'
  have hm : ((nlon : ℚ)) ≠ 0 := Nat.cast_ne_zero.mpr hlon.ne'
  have hsum : ∑ i, w0 (ds.lat i) / ((∑ k, w0 (ds.lat k)) / (nlat : ℚ)) = (nlat : ℚ) := by
    simp only [div_div_eq_mul_div]
    rw [← Finset.sum_div, ← Finset.sum_mul, mul_comm, mul_div_assoc, div_self hw, mul_one]
  refine ⟨by rw [hsum, div_self hn], ?_, ?_⟩
  · intro t
    unfold global_mean
    rw [Finset.sum_div]
    refine Finset.sum_congr rfl fun i _ => ?_
    rw [← Finset.sum_mul, ← Finset.mul_sum, ← Finset.sum_div]
    field_simp
    ring
  · intro c t
    unfold global_mean
    simp only [Finset.sum_const, Finset.card_univ, Fintype.card_fin, nsmul_eq_mul]
    have step : ∀ i : Fin nlat,
        (nlon : ℚ) * (c * (w0 (ds.lat i) / ((∑ k, w0 (ds.lat k)) / (nlat : ℚ)))) =
          ((nlon : ℚ) * c * (nlat : ℚ) / (∑ k, w0 (ds.lat k))) * w0 (ds.lat i) := by
      intro i
      field_simp
      ring
    rw [Finset.sum_congr rfl fun i _ => step i, ← Finset.mul_sum]
    field_simp
    ring

/-- Witness for C3: on a two-latitude, one-longitude grid with unit raw
weights, the reduction of the spatially constant field 5 is 5 at the one
time step, by the theorem applied at that input. -/
theorem global_mean_weighted_average_holds :
    global_mean (fun _ => 1)
      { lat := fun _ => 0, data := fun _ _ _ => (5 : ℚ) : RawSeries 1 2 1 }
      0 = 5 := by
  have h := (global_mean_weighted_average (fun _ => (1 : ℚ))
    ({ lat := fun _ => 0, data := fun _ _ _ => (5 : ℚ) } : RawSeries 1 2 1)
    (by norm_num) (by norm_num) (by norm_num)).2.2 5 0
  simpa using h

/-- Unfolding equation of blocks on a nonempty list and a positive window. -/
theorem blocks_cons (w : ℕ) (xs : List ℚ) (hw : 0 < w) (hxs : xs ≠ []) :
    blocks w xs = xs.take w :: blocks w (xs.drop w) := by
  rw [blocks]
  simp [hw, hxs]

/-- Blocks of an empty list. -/
theorem blocks_nil (w : ℕ) : blocks w [] = [] := by
  rw [blocks]
  simp

/-- When the window w divides the length exactly (length = w * n), the
blocks are the n consecutive w-element slices. -/
theorem blocks_of_exact (w : ℕ) (hw : 0 < w) :
    ∀ (n : ℕ) (xs : List ℚ), xs.length = w * n →
      blocks w xs = (List.range n).map (fun i => (xs.drop (w * i)).take w) := by
  intro n
  induction n with
  | zero =>
      intro xs hlen
      have : xs = [] := List.length_eq_zero.mp (by simpa using hlen)
      simp [this, blocks_nil]
  | succ m ih =>
      intro xs hlen
      have hne : xs ≠ [] := by
        intro hx
        rw [hx] at hlen
        simp at hlen
        omega
      have hdrop : (xs.drop w).length = w * m := by
        simp [List.length_drop, hlen, Nat.mul_succ]
      rw [blocks_cons w xs hw hne, ih (xs.drop w) hdrop, List.range_succ_eq_map]
      simp only [List.map_cons, List.map_map]
      congr 1
      refine List.map_congr_left fun a _ => ?_
      simp only [Function.comp_apply, List.drop_drop]
      congr 2
      rw [Nat.mul_succ, Nat.add_comm]

/-- C6 amended: the annual coarsening uses the exact-boundary rule of the
source notebooks: a monthly series whose length is not a multiple of 12
makes the step fail (none, the embedded ValueError) rather than truncate,
while a series of exactly 12 * n months yields the n annual points, the
i-th being the unweighted mean of its 12-month slice; in particular a
24-month series yields exactly 2 points, the means of its two blocks, and
a 25-month series fails. -/
theorem coarsen_mean_exact (xs : List ℚ) :
    (xs.length % 12 ≠ 0 → coarsen_mean 12 xs = none) ∧
    (xs.length % 12 = 0 → coarsen_mean 12 xs =
      some ((List.range (xs.length / 12)).map
        (fun i => meanQ ((xs.drop (12 * i)).take 12)))) := by
  constructor
  · intro hmod
    unfold coarsen_mean
    rw [if_neg]
    intro hcontra
    exact hmod hcontra.2
  · intro hmod
    unfold coarsen_mean
    rw [if_pos ⟨by norm_num, hmod⟩]
    have hlen : xs.length = 12 * (xs.length / 12) := by omega
    rw [blocks_of_exact 12 (by norm_num) (xs.length / 12) xs hlen, List.map_map]
    rfl

/-- Witness for C6: a 24-month series made of a block of twelve 2s then
twelve 5s coarsens to exactly the two annual means [2, 5], through the
theorem applied at that input; and the 25-month failure is witnessed by
the counterexample theorem above. -/
theorem coarsen_mean_exact_holds :
    coarsen_mean 12 (List.replicate 12 (2 : ℚ) ++ List.replicate 12 5) = some [2, 5] := by
  have h := (coarsen_mean_exact (List.replicate 12 (2 : ℚ) ++ List.replicate 12 5)).2
    (by simp)
  rw [h]
  norm_num [List.range_succ, meanQ]

/-- Rows built from a mapping with no missing value carry exactly the
requested experiment names, in order. -/
theorem filterMap_rows_fst {α : Type} (v : String → Option α) :
    ∀ es : List String, (∀ e ∈ es, v e ≠ none) →
      (es.filterMap (fun e => (v e).map (fun d => (e, d)))).map Prod.fst = es := by
  intro es
  induction es with
  | nil => intro _; rfl
  | cons e rest ih =>
      intro hall
      obtain ⟨d, hd⟩ := Option.ne_none_iff_exists'.mp (hall e (by simp))
      rw [List.filterMap_cons]
      simp only [hd, Option.map_some']
      simp only [List.map_cons]
      rw [ih fun x hx => hall x (by simp [hx])]

/-- C7: one iteration of the alignment loop over a model's experiments:
whenever any required experiment is missing (none), the model is excluded
with the reported message of the source loop and contributes no frame; and
whenever no experiment is missing the result is a frame whose rows list
exactly the required experiments, never a partially filled one. -/
theorem align_model_excludes {α : Type} (k : String) (expts : List String)
    (v : String → Option α) :
    ((∃ e ∈ expts, v e = none) →
      align_model k expts v = .excluded ("Missing experiment for " ++ k)) ∧
    ((∀ e ∈ expts, v e ≠ none) →
      ∃ rows, align_model k expts v = .frame rows ∧ rows.map Prod.fst = expts) := by
  constructor
  · rintro ⟨e, he, hve⟩
    unfold align_model
    rw [if_pos]
    exact List.any_eq_true.mpr ⟨e, he, by simp [hve]⟩
  · intro hall
    unfold align_model
    rw [if_neg]
    · exact ⟨_, rfl, filterMap_rows_fst v expts hall⟩
    · intro hcontra
      obtain ⟨e, he, hne⟩ := List.any_eq_true.mp hcontra
      exact hall e he (Option.isNone_iff_eq_none.mp hne)

/-- Witness for C7: a model missing experiment B is excluded with the
reported message, and a model with every experiment present yields a full
frame, both through the theorem at concrete inputs. -/
theorem align_model_excludes_holds :
    align_model "M1" ["A", "B"] (fun e => if e = "A" then some (1 : ℚ) else none) =
      AlignResult.excluded "Missing experiment for M1" ∧
    (∃ rows, align_model "M2" ["A"] (fun _ => some (1 : ℚ)) = AlignResult.frame rows ∧
      rows.map Prod.fst = ["A"]) := by
  constructor
  · exact (align_model_excludes "M1" ["A", "B"] _).1 ⟨"B", by simp, by simp⟩
  · exact (align_model_excludes "M2" ["A"] _).2 (by simp)

/-- C8: the join policies of the two pipelines.  For the ECS concatenation
(join right) every stacked experiment row carries exactly the year index of
the last series in the list, the designated forcing experiment, so years
beyond the reference are dropped; for the GMST concatenation (join outer)
the shared index is the union of all years, every stacked row carries that
union, and a year a series lacks is stored as the explicit missing marker
none, never as a zero. -/
theorem join_policies :
    (∀ (ss : List SeriesQ) (row : List (ℤ × Option ℚ)), row ∈ concat_right ss →
      row.map Prod.fst = series_years (ss.getLastD [])) ∧
    (∀ (ss : List SeriesQ) (y : ℤ), y ∈ outer_index ss ↔ ∃ s ∈ ss, y ∈ series_years s) ∧
    (∀ (idx : List ℤ) (s : SeriesQ) (y : ℤ), y ∈ idx → y ∉ series_years s →
      (y, (none : Option ℚ)) ∈ reindex idx s) ∧
    (∀ (ss : List SeriesQ) (row : List (ℤ × Option ℚ)), row ∈ concat_outer ss →
      row.map Prod.fst = outer_index ss) := by
  have hfst : ∀ (idx : List ℤ) (s : SeriesQ), (reindex idx s).map Prod.fst = idx := by
    intro idx s
    unfold reindex
    rw [List.map_map]
    exact List.map_id idx
  refine ⟨?_, ?_, ?_, ?_⟩
  · intro ss row hrow
    obtain ⟨s, _, rfl⟩ := List.mem_map.mp hrow
    exact hfst _ s
  · intro ss y
    unfold outer_index
    rw [List.mem_dedup]
    induction ss with
    | nil => simp
    | cons s rest ih => simp [ih]
  · intro idx s y hy hnone
    have hlook : series_lookup s y = none := by
      unfold series_lookup
      rw [List.find?_eq_none.mpr]
      · rfl
      · intro p hp hbeq
        exact hnone (List.mem_map.mpr ⟨p, hp, by simpa using hbeq⟩)
    exact List.mem_map.mpr ⟨y, hy, by rw [hlook]⟩
  · intro ss row hrow
    obtain ⟨s, _, rfl⟩ := List.mem_map.mp hrow
    exact hfst _ s

/-- Witness for C8: at concrete inputs, re-indexing an empty series to the
index [0] stores the explicit missing marker at year 0, and the outer index
of two one-year series contains the year present only in the second, both
through the theorem. -/
theorem join_policies_holds :
    ((0 : ℤ), (none : Option ℚ)) ∈ reindex [0] [] ∧
    (2 : ℤ) ∈ outer_index [[((1 : ℤ), (10 : ℚ))], [((2 : ℤ), (20 : ℚ))]] := by
  constructor
  · exact join_policies.2.2.1 [0] [] 0 (by decide) (by decide)
  · exact (join_policies.2.1 _ 2).mpr ⟨[(2, 20)], by simp, by simp [series_years]⟩

/-- Full characterization of the regridding loop fold, for any starting
accumulator: the counters grow by the number of attempted, succeeded and
failed models, every failure appends its recorded reason, and every
success appends its model's entry. -/
theorem regrid_foldl {α : Type} [Inhabited α] :
    ∀ (runs : List (String × Except String α)) (acc : BatchResult α),
      (List.foldl regrid_step acc runs).model_count = acc.model_count + runs.length ∧
      (List.foldl regrid_step acc runs).success_count =
        acc.success_count + (runs.filter (fun p => isOkB p.2)).length ∧
      (List.foldl regrid_step acc runs).failures =
        acc.failures ++ (runs.filter (fun p => !isOkB p.2)).map
          (fun p => "Failed to regrid " ++ p.1 ++ ": " ++ errText p.2) ∧
      (List.foldl regrid_step acc runs).regridded =
        acc.regridded ++ (runs.filter (fun p => isOkB p.2)).map
          (fun p => (p.1, okVal p.2)) := by
  intro runs
  induction runs with
  | nil => intro acc; simp
  | cons r rs ih =>
      intro acc
      rw [List.foldl_cons]
      obtain ⟨h1, h2, h3, h4⟩ := ih (regrid_step acc r)
      rcases hr : r.2 with e | a
      · have hstep : regrid_step acc r =
            { acc with
              failures := acc.failures ++ ["Failed to regrid " ++ r.1 ++ ": " ++ e]
              model_count := acc.model_count + 1 } := by
          unfold regrid_step
          rw [hr]
        refine ⟨?_, ?_, ?_, ?_⟩
        · rw [h1, hstep]
          simp
          omega
        · rw [h2, hstep]
          simp [List.filter_cons, hr, isOkB]
        · rw [h3, hstep]
          simp [List.filter_cons, hr, isOkB, errText]
        · rw [h4, hstep]
          simp [List.filter_cons, hr, isOkB]
      · have hstep : regrid_step acc r =
            { acc with
              regridded := acc.regridded ++ [(r.1, a)]
              success_count := acc.success_count + 1
              model_count := acc.model_count + 1 } := by
          unfold regrid_step
          rw [hr]
        refine ⟨?_, ?_, ?_, ?_⟩
        · rw [h1, hstep]
          simp
          omega
        · rw [h2, hstep]
          simp [List.filter_cons, hr, isOkB]
          omega
        · rw [h3, hstep]
          simp [List.filter_cons, hr, isOkB]
        · rw [h4, hstep]
          simp [List.filter_cons, hr, isOkB, okVal]

/-- Every model run is either a success or a failure, so the two filtered
sublists of the batch partition it. -/
theorem length_filter_split {α : Type} (runs : List (String × Except String α)) :
    (runs.filter (fun p => isOkB p.2)).length +
      (runs.filter (fun p => !isOkB p.2)).length = runs.length := by
  induction runs with
  | nil => rfl
  | cons r rs ihs =>
      rcases hr : isOkB r.2 with _ | _ <;>
        simp [List.filter_cons, hr] <;> omega

/-- C9: the batch regridding loop accounts for every model: the attempted
count equals the number of input models, the success count equals the
number of successful runs, every failed run leaves exactly one recorded
failure message (so no error is swallowed uncounted), succeeded plus
failed equals attempted (the loop never aborts early), the stored frame
holds exactly one entry per success, and the batch summary reporting
succeeded over attempted is always produced. -/
theorem regrid_batch_accounting {α : Type} [Inhabited α]
    (runs : List (String × Except String α)) :
    (regrid_batch runs).model_count = runs.length ∧
    (regrid_batch runs).success_count = (runs.filter (fun p => isOkB p.2)).length ∧
    (regrid_batch runs).failures.length = (runs.filter (fun p => !isOkB p.2)).length ∧
    (regrid_batch runs).success_count + (regrid_batch runs).failures.length =
      runs.length ∧
    (regrid_batch runs).regridded.length = (regrid_batch runs).success_count ∧
    batch_summary (regrid_batch runs) =
      toString (runs.filter (fun p => isOkB p.2)).length ++ "/" ++
        toString runs.length ++ " models successfully regridded!" := by
  obtain ⟨h1, h2, h3, h4⟩ := regrid_foldl runs (⟨[], 0, 0, []⟩ : BatchResult α)
  unfold regrid_batch
  have hfail : (List.foldl regrid_step (⟨[], 0, 0, []⟩ : BatchResult α) runs).failures.length =
      (runs.filter (fun p => !isOkB p.2)).length := by
    rw [h3]
    simp
  have hok : (List.foldl regrid_step (⟨[], 0, 0, []⟩ : BatchResult α) runs).regridded.length =
      (runs.filter (fun p => isOkB p.2)).length := by
    rw [h4]
    simp
  have hsplit := length_filter_split runs
  refine ⟨by rw [h1]; simp, by rw [h2]; simp, hfail, ?_, ?_, ?_⟩
  · rw [h2, hfail]
    simpa using hsplit
  · rw [hok, h2]
    simp
  · unfold batch_summary
    rw [h1, h2]
    simp

/-- Witness for C9 (and the end-to-end property of the spec): three
attempted models of which one fails produce the summary 2/3, through the
theorem at that input. -/
theorem regrid_batch_accounting_holds :
    batch_summary (regrid_batch
      [("A", Except.ok (1 : ℚ)), ("B", Except.error "shape mismatch"),
        ("C", Except.ok 2)]) = "2/3 models successfully regridded!" := by
  have h := (regrid_batch_accounting
    [("A", Except.ok (1 : ℚ)), ("B", Except.error "shape mismatch"),
      ("C", Except.ok 2)]).2.2.2.2.2
  rw [h]
  rfl

/-- The split loop routes each key by the if / elif / else chain: the first
list gets exactly the keys containing piControl, the second exactly the
keys containing 1pctCO2 but not piControl. -/
theorem split_keys_eq_filter (ks : List String) :
    split_keys ks =
      (ks.filter (fun k => strContains k "piControl"),
       ks.filter (fun k => !strContains k "piControl" && strContains k "1pctCO2")) := by
  induction ks with
  | nil => rfl
  | cons k rest ih =>
      unfold split_keys
      rw [ih]
      rcases h1 : strContains k "piControl" with _ | _ <;>
        rcases h2 : strContains k "1pctCO2" with _ | _ <;>
          simp [List.filter_cons, h1, h2]

/-- C10 amended: sorted_split_list returns two sorted lists; the first is a
permutation of the input keys containing piControl, the second a
permutation of the input keys containing 1pctCO2 but not piControl (a key
containing both substrings goes only to the first list, by the elif); a key
containing neither substring lands in neither list, and no key is ever in
both lists. -/
theorem sorted_split_list_spec (ks : List String) :
    (sorted_split_list ks).1.Perm (ks.filter (fun k => strContains k "piControl")) ∧
    (sorted_split_list ks).2.Perm
      (ks.filter (fun k => !strContains k "piControl" && strContains k "1pctCO2")) ∧
    (sorted_split_list ks).1.Sorted (· ≤ ·) ∧
    (sorted_split_list ks).2.Sorted (· ≤ ·) ∧
    (∀ k, k ∈ (sorted_split_list ks).1 → k ∉ (sorted_split_list ks).2) ∧
    (∀ k, strContains k "piControl" = false → strContains k "1pctCO2" = false →
      k ∉ (sorted_split_list ks).1 ∧ k ∉ (sorted_split_list ks).2) := by
  have hfst : (sorted_split_list ks).1 =
      (ks.filter (fun k => strContains k "piControl")).insertionSort (· ≤ ·) := by
    unfold sorted_split_list
    rw [split_keys_eq_filter]
  have hsnd : (sorted_split_list ks).2 =
      (ks.filter (fun k =>
        !strContains k "piControl" && strContains k "1pctCO2")).insertionSort (· ≤ ·) := by
    unfold sorted_split_list
    rw [split_keys_eq_filter]
  refine ⟨?_, ?_, ?_, ?_, ?_, ?_⟩
  · rw [hfst]
    exact List.perm_insertionSort _ _
  · rw [hsnd]
    exact List.perm_insertionSort _ _
  · rw [hfst]
    exact List.sorted_insertionSort _ _
  · rw [hsnd]
    exact List.sorted_insertionSort _ _
  · intro k hk1 hk2
    rw [hfst, List.mem_insertionSort] at hk1
    rw [hsnd, List.mem_insertionSort] at hk2
    have h1 := List.of_mem_filter hk1
    have h2 := List.of_mem_filter hk2
    simp at h1 h2
    simp [h1] at h2
  · intro k h1 h2
    constructor
    · rw [hfst, List.mem_insertionSort]
      intro hk
      have := List.of_mem_filter hk
      simp [h1] at this
    · rw [hsnd, List.mem_insertionSort]
      intro hk
      have := List.of_mem_filter hk
      simp [h1, h2] at this

/-- Witness for C10: a 1pctCO2 key is not in the piControl list, and a key
with neither substring is in neither list, through the theorem at concrete
inputs. -/
theorem sorted_split_list_spec_holds :
    ("a.piControl" ∉ (sorted_split_list ["a.piControl", "b.1pctCO2"]).2) ∧
    ("x" ∉ (sorted_split_list ["x"]).1 ∧ "x" ∉ (sorted_split_list ["x"]).2) := by
  constructor
  · exact (sorted_split_list_spec ["a.piControl", "b.1pctCO2"]).2.2.2.2.1
      "a.piControl" (by decide)
  · exact (sorted_split_list_spec ["x"]).2.2.2.2.2 "x" (by decide) (by decide)

/-- C2 amended: the missing-value removal of calc_and_plot_ecs filters the
two sequences independently, so it agrees with the spec's paired removal
exactly when the missing positions of the two sequences coincide; and
calc_ecs applies no windowing, no filtering and no error path of its own:
on a degenerate window whose temperatures are all equal it returns the junk
value 0 of the embedding (a numeric sentinel, not an InsufficientData or
DegenerateFit failure). -/
theorem removal_and_degenerate :
    (∀ xs ys : List (Option ℚ), xs.length = ys.length →
      (∀ i, i < xs.length → ((xs.getD i none = none) ↔ (ys.getD i none = none))) →
      calc_and_plot_ecs_filter xs ys = pairedRemovalSpec xs ys) ∧
    (∀ (c : ℚ) (ys : List ℚ), calc_ecs (List.replicate ys.length c) ys = 0) := by
  constructor
  · intro xs
    induction xs with
    | nil =>
        intro ys hlen _
        have hys : ys = [] := List.length_eq_zero.mp hlen.symm
        subst hys
        rfl
    | cons x xs ih =>
        intro ys hlen hiff
        cases ys with
        | nil => simp at hlen
        | cons y ys =>
            have h0 := hiff 0 (by simp)
            simp only [List.getD_cons_zero] at h0
            have hlen' : xs.length = ys.length := by simpa using hlen
            have htail : ∀ i, i < xs.length →
                ((xs.getD i none = none) ↔ (ys.getD i none = none)) := by
              intro i hi
              have := hiff (i + 1) (by simpa using Nat.succ_lt_succ hi)
              simpa [List.getD_cons_succ] using this
            have hrec := ih ys hlen' htail
            rcases x with _ | a <;> rcases y with _ | b
            · simpa [calc_and_plot_ecs_filter, dropMissing, pairedRemovalSpec]
                using hrec
            · simp at h0
            · simp at h0
            · have h1 : dropMissing xs = (pairedRemovalSpec xs ys).1 :=
                congrArg Prod.fst hrec
              have h2 : dropMissing ys = (pairedRemovalSpec xs ys).2 :=
                congrArg Prod.snd hrec
              simp [calc_and_plot_ecs_filter, dropMissing, pairedRemovalSpec,
                ← h1, ← h2]
  · intro c ys
    have hden : ((List.replicate ys.length c).length : ℚ) *
        dotSum (List.replicate ys.length c) (List.replicate ys.length c) -
        (List.replicate ys.length c).sum * (List.replicate ys.length c).sum = 0 := by
      simp [dotSum, List.zipWith_replicate', List.sum_replicate, nsmul_eq_mul]
      ring
    unfold calc_ecs polyfit_intercept polyfit_slope
    rw [hden, div_zero]
    simp

/-- Witness for C2: on two sequences whose missing positions coincide the
independent removal agrees with the spec's paired removal, through the
theorem at that input. -/
theorem removal_and_degenerate_holds :
    calc_and_plot_ecs_filter [some 2, none] [some 3, none] =
      pairedRemovalSpec [some 2, none] [some 3, none] :=
  removal_and_degenerate.1 [some 2, none] [some 3, none] rfl (by decide)

/-- Sum of an affine image of a list. -/
theorem sum_map_affine (p q : ℚ) (l : List ℚ) :
    (l.map (fun t => p * t + q)).sum = p * l.sum + q * (l.length : ℚ) := by
  induction l with
  | nil => simp
  | cons a l ih =>
      simp only [List.map_cons, List.sum_cons, ih, List.length_cons]
      push_cast
      ring

/-- Sum of t times an affine function of t over a list. -/
theorem sum_map_mul_affine (p q : ℚ) (l : List ℚ) :
    (l.map (fun t => t * (p * t + q))).sum =
      p * (l.map (fun t => t * t)).sum + q * l.sum := by
  induction l with
  | nil => simp
  | cons a l ih =>
      simp only [List.map_cons, List.sum_cons, ih]
      ring

/-- The pairwise product of a list with itself is its sum of squares. -/
theorem dotSum_self (l : List ℚ) :
    dotSum l l = (l.map (fun t => t * t)).sum := by
  unfold dotSum
  rw [List.zipWith_same]

/-- The pairwise product of a list with its own image. -/
theorem dotSum_map (f : ℚ → ℚ) (l : List ℚ) :
    dotSum l (l.map f) = (l.map (fun t => t * f t)).sum := by
  unfold dotSum
  rw [List.zipWith_map_right, List.zipWith_same]

/-- A list sum as a sum over its index type. -/
theorem list_sum_eq_sum_get (l : List ℚ) :
    l.sum = ∑ k : Fin l.length, l.get k := by
  conv_lhs => rw [← List.ofFn_get l]
  rw [List.sum_ofFn]

/-- A mapped list sum as a sum over the index type. -/
theorem list_map_sum_eq_sum_get (f : ℚ → ℚ) (l : List ℚ) :
    (l.map f).sum = ∑ k : Fin l.length, f (l.get k) := by
  conv_lhs => rw [← List.ofFn_get l]
  rw [List.map_ofFn, List.sum_ofFn]
  rfl

/-- Strict Cauchy inequality: a family with two distinct values has
square-of-sum strictly below count times sum-of-squares, so the
least-squares denominator of the degree-1 fit is positive. -/
theorem sq_sum_lt_card_mul_sum_sq {n : ℕ} (x : Fin n → ℚ) (i j : Fin n)
    (hij : x i ≠ x j) :
    (∑ k, x k) * (∑ k, x k) < (n : ℚ) * ∑ k, x k * x k := by
  have hn : 0 < n := i.pos
  have hnQ : (n : ℚ) ≠ 0 := Nat.cast_ne_zero.mpr hn.ne'
  set μ : ℚ := (∑ k, x k) / (n : ℚ) with hμ
  have hvar : ∑ k, (x k - μ) * (x k - μ) =
      (∑ k, x k * x k) - (∑ k, x k) * (∑ k, x k) / (n : ℚ) := by
    have expand : ∀ k : Fin n, (x k - μ) * (x k - μ) =
        x k * x k - 2 * μ * x k + μ * μ := fun k => by ring
    rw [Finset.sum_congr rfl fun k _ => expand k]
    rw [Finset.sum_add_distrib, Finset.sum_sub_distrib, ← Finset.mul_sum,
      Finset.sum_const, Finset.card_univ, Fintype.card_fin, nsmul_eq_mul, hμ]
    field_simp
    ring
  have hone : x i - μ ≠ 0 ∨ x j - μ ≠ 0 := by
    by_contra hcon
    push_neg at hcon
    exact hij (by
      have hi := sub_eq_zero.mp hcon.1
      have hj := sub_eq_zero.mp hcon.2
      rw [hi, hj])
  have hpos : 0 < ∑ k, (x k - μ) * (x k - μ) := by
    rcases hone with hne | hne
    · exact Finset.sum_pos' (fun k _ => mul_self_nonneg _)
        ⟨i, Finset.mem_univ i, mul_self_pos.mpr hne⟩
    · exact Finset.sum_pos' (fun k _ => mul_self_nonneg _)
        ⟨j, Finset.mem_univ j, mul_self_pos.mpr hne⟩
  rw [hvar] at hpos
  have hlt : (∑ k, x k) * (∑ k, x k) / (n : ℚ) < ∑ k, x k * x k := by
    linarith
  calc (∑ k, x k) * (∑ k, x k)
      = ((∑ k, x k) * (∑ k, x k) / (n : ℚ)) * (n : ℚ) := by field_simp
    _ < (∑ k, x k * x k) * (n : ℚ) := by
        exact mul_lt_mul_of_pos_right hlt (by positivity)
    _ = (n : ℚ) * ∑ k, x k * x k := by ring

/-- List form of the strict inequality, from two distinct members. -/
theorem sq_sum_lt_of_two_distinct (l : List ℚ)
    (h : ∃ u ∈ l, ∃ v ∈ l, u ≠ v) :
    l.sum * l.sum < (l.length : ℚ) * (l.map (fun t => t * t)).sum := by
  obtain ⟨u, hu, v, hv, huv⟩ := h
  obtain ⟨i, hi⟩ := List.mem_iff_get.mp hu
  obtain ⟨j, hj⟩ := List.mem_iff_get.mp hv
  have hx : l.get i ≠ l.get j := by rw [hi, hj]; exact huv
  have hmain := sq_sum_lt_card_mul_sum_sq l.get i j hx
  rw [list_sum_eq_sum_get, list_map_sum_eq_sum_get]
  exact hmain

/-- C1 amended: on synthetic data lying exactly on the line
imbalance = -2 * temperature + 8, calc_ecs returns exactly 4 on every
window whose temperatures are not all identical (so the least-squares fit
is non-degenerate); with constant temperatures the fit has no unique
solution and the counterexample theorem applies. -/
theorem calc_ecs_synthetic_line (tas : List ℚ)
    (h : ∃ u ∈ tas, ∃ v ∈ tas, u ≠ v) :
    calc_ecs tas (tas.map (fun t => -2 * t + 8)) = 4 := by
  have hD := sq_sum_lt_of_two_distinct tas h
  have hDne : (tas.length : ℚ) * (tas.map (fun t => t * t)).sum -
      tas.sum * tas.sum ≠ 0 := (sub_pos.mpr hD).ne'
  have hne : tas ≠ [] := by
    obtain ⟨u, hu, _⟩ := h
    exact List.ne_nil_of_mem hu
  have hnQ : (tas.length : ℚ) ≠ 0 :=
    Nat.cast_ne_zero.mpr (List.length_pos.mpr hne).ne'
  have hslope : polyfit_slope tas (tas.map (fun t => -2 * t + 8)) = -2 := by
    unfold polyfit_slope
    rw [dotSum_map, sum_map_mul_affine, sum_map_affine, dotSum_self,
      div_eq_iff hDne]
    ring
  have hinter : polyfit_intercept tas (tas.map (fun t => -2 * t + 8)) = 8 := by
    unfold polyfit_intercept
    rw [hslope, sum_map_affine, div_eq_iff hnQ]
    ring
  unfold calc_ecs
  rw [hslope, hinter]
  norm_num

/-- Witness for C1: a two-point window with distinct temperatures 0 and 1
on the synthetic line gives imbalances 8 and 6, and the estimator returns
exactly 4, through the theorem at that input. -/
theorem calc_ecs_synthetic_line_holds :
    calc_ecs [(0 : ℚ), 1] [8, 6] = 4 := by
  have h := calc_ecs_synthetic_line [(0 : ℚ), 1]
    ⟨0, by norm_num, 1, by norm_num, by norm_num⟩
  norm_num at h
  exact h

/-- A zipped sum over equally long lists as a sum over the index type. -/
theorem sum_zipWith_eq_sum_get (f : ℚ → ℚ → ℚ) :
    ∀ (xs ys : List ℚ) (hlen : xs.length = ys.length),
      (List.zipWith f xs ys).sum =
        ∑ k : Fin xs.length, f (xs.get k) (ys.get (Fin.cast hlen k)) := by
  intro xs
  induction xs with
  | nil =>
      intro ys hlen
      simp
  | cons a xs ih =>
      intro ys hlen
      cases ys with
      | nil => simp at hlen
      | cons b ys =>
          have hlen' : xs.length = ys.length := by simpa using hlen
          rw [List.zipWith_cons_cons, List.sum_cons, ih ys hlen']
          simp only [List.length_cons]
          rw [Fin.sum_univ_succ]
          rfl

/-- The closed-form fit really is the least-squares line: on any input
whose fit is non-degenerate, the residual sum of squares of the line with
slope polyfit_slope and intercept polyfit_intercept is minimal among all
lines, which ties the embedding of np.polyfit to its documented
least-squares meaning. -/
theorem polyfit_minimizes_rss (xs ys : List ℚ) (hlen : xs.length = ys.length)
    (hD : (xs.length : ℚ) * dotSum xs xs - xs.sum * xs.sum ≠ 0) (a' b' : ℚ) :
    rss (polyfit_slope xs ys) (polyfit_intercept xs ys) xs ys ≤ rss a' b' xs ys := by
  have hn : (xs.length : ℚ) ≠ 0 := by
    rcases Nat.eq_zero_or_pos xs.length with h0 | hpos
    · exfalso
      apply hD
      have hnil : xs = [] := List.length_eq_zero.mp h0
      subst hnil
      simp [dotSum]
    · exact Nat.cast_ne_zero.mpr hpos.ne'
  set n : ℕ := xs.length with hn_def
  set x : Fin n → ℚ := xs.get with hx_def
  set y : Fin n → ℚ := fun k => ys.get (Fin.cast hlen k) with hy_def
  have hxsum : xs.sum = ∑ k, x k := list_sum_eq_sum_get xs
  have hysum : ys.sum = ∑ k, y k := by
    rw [list_sum_eq_sum_get ys]
    exact (Fintype.sum_equiv (finCongr hlen) y (ys.get) fun k => rfl).symm
  have hxy : dotSum xs ys = ∑ k, x k * y k :=
    sum_zipWith_eq_sum_get (fun u v => u * v) xs ys hlen
  have hxx : dotSum xs xs = ∑ k, x k * x k := by
    have h2 := sum_zipWith_eq_sum_get (fun u v => u * v) xs xs rfl
    exact h2
  have hrss : ∀ a b : ℚ, rss a b xs ys = ∑ k, (a * x k + b - y k) * (a * x k + b - y k) :=
    fun a b => sum_zipWith_eq_sum_get (fun u v => (a * u + b - v) * (a * u + b - v)) xs ys hlen
  have hDfin : (n : ℚ) * (∑ k, x k * x k) - (∑ k, x k) * (∑ k, x k) ≠ 0 := by
    rw [← hxx, ← hxsum]
    exact hD
  have hA : polyfit_slope xs ys =
      ((n : ℚ) * (∑ k, x k * y k) - (∑ k, x k) * (∑ k, y k)) /
        ((n : ℚ) * (∑ k, x k * x k) - (∑ k, x k) * (∑ k, x k)) := by
    unfold polyfit_slope
    rw [hxy, hxx, hxsum, hysum]
  have hB : polyfit_intercept xs ys =
      ((∑ k, y k) - polyfit_slope xs ys * (∑ k, x k)) / (n : ℚ) := by
    unfold polyfit_intercept
    rw [hysum, hxsum]
  set A : ℚ := polyfit_slope xs ys with hA_def
  set B : ℚ := polyfit_intercept xs ys with hB_def
  have hr1 : ∑ k, (A * x k + B - y k) = 0 := by
    rw [Finset.sum_sub_distrib, Finset.sum_add_distrib, ← Finset.mul_sum,
      Finset.sum_const, Finset.card_univ, Fintype.card_fin, nsmul_eq_mul, hB]
    field_simp
  have hr2 : ∑ k, x k * (A * x k + B - y k) = 0 := by
    have expand : ∀ k, x k * (A * x k + B - y k) =
        A * (x k * x k) + B * x k - x k * y k := fun k => by ring
    rw [Finset.sum_congr rfl fun k _ => expand k, Finset.sum_sub_distrib,
      Finset.sum_add_distrib, ← Finset.mul_sum, ← Finset.mul_sum, hB, hA]
    field_simp
    ring
  have pointwise : ∀ k, (a' * x k + b' - y k) * (a' * x k + b' - y k) =
      (A * x k + B - y k) * (A * x k + B - y k)
      + (2 * (a' - A)) * (x k * (A * x k + B - y k))
      + (2 * (b' - B)) * (A * x k + B - y k)
      + ((a' - A) * x k + (b' - B)) * ((a' - A) * x k + (b' - B)) :=
    fun k => by ring
  rw [hrss, hrss]
  rw [Finset.sum_congr rfl fun k _ => pointwise k]
  rw [Finset.sum_add_distrib, Finset.sum_add_distrib, Finset.sum_add_distrib,
    ← Finset.mul_sum, ← Finset.mul_sum, hr1, hr2]
  simp only [mul_zero, add_zero]
  exact le_add_of_nonneg_right (Finset.sum_nonneg fun k _ => mul_self_nonneg _)

end Cmip6
